import Mathlib

/-!
Verification development for the minigame parlor bot.

Shallow embedding of the game logic and economy operations of the
repository, together with theorems settling the behavioural claims
about them.  Each definition is translated from the TypeScript source
file named in its doc comment.  External effects (Discord rendering,
the Prisma database, timers, `Math.random`) are modelled by explicit
state passing and by parameters supplying the values an external
source would produce, constrained exactly as the library guarantees
(for instance `Math.floor(Math.random() * n)` lies in `[0, n)`).
-/

namespace Parlor

/- ===================================================================
   Card primitives — src/utils/blackcat.logic.ts
   =================================================================== -/

/-- Card suits, from the `SUITS` table of blackcat.logic.ts. -/
inductive Suit
| hearts
| diamonds
| clubs
| spades
deriving DecidableEq, Repr

/-- Card ranks, from the `RANKS` table of blackcat.logic.ts. -/
inductive Rank
| ace
| two
| three
| four
| five
| six
| seven
| eight
| nine
| ten
| jack
| queen
| king
deriving DecidableEq, Repr

/-- The numeric value `createDeck` assigns to each rank: ace is 11
initially, face cards are 10, number cards their face value. -/
def rankValue : Rank → ℕ
| .ace => 11
| .two => 2
| .three => 3
| .four => 4
| .five => 5
| .six => 6
| .seven => 7
| .eight => 8
| .nine => 9
| .ten => 10
| .jack => 10
| .queen => 10
| .king => 10

/-- A card.  In the source a `Card` carries suit, rank, a numeric
`value` and a display string; every card is built by `createDeck`,
which derives `value` from the rank via the rule embodied in
`rankValue`, so here `value` is a derived field and the display
string is dropped. -/
structure Card where
  suit : Suit
  rank : Rank
deriving DecidableEq, Repr

/-- The `value` field `createDeck` stores on a card. -/
def Card.value (c : Card) : ℕ := rankValue c.rank

/-- Sum of the `value` fields of a hand (first loop of
`calculateHandValue`). -/
def sumValues (hand : List Card) : ℕ := (hand.map Card.value).sum

/-- Number of aces in a hand (the `aceCount` of
`calculateHandValue`). -/
def countAces (hand : List Card) : ℕ :=
  (hand.filter (fun c => c.rank == Rank.ace)).length

/-- The `while (value > 21 && aceCount > 0)` loop of
`calculateHandValue`: repeatedly turn an ace from 11 into 1
(subtract 10) while the total is over 21 and a high ace remains.
Returns the final total together with the number of aces still
counted at 11. -/
def adjustAces : ℕ → ℕ → ℕ × ℕ
| v, 0 => (v, 0)
| v, n + 1 => if v > 21 then adjustAces (v - 10) n else (v, n + 1)

/-- Result record of `calculateHandValue`. -/
structure HandValue where
  value : ℕ
  isSoft : Bool
deriving DecidableEq, Repr

/-- `calculateHandValue` of blackcat.logic.ts.  The source runs the
ace-adjustment loop, then runs an identical second loop over the same
inputs to recompute `tempValue` and `softAceCount` and finally sets
`isSoft = softAceCount > 0 && tempValue <= 21`; both loops are the
same deterministic computation, embodied here once by `adjustAces`
(the intermediate dead store to `isSoft` on line 60 is overwritten
on line 72 and has no effect). -/
def calculateHandValue (hand : List Card) : HandValue :=
  let p := adjustAces (sumValues hand) (countAces hand)
  { value := p.1, isSoft := decide (p.2 > 0) && decide (p.1 ≤ 21) }

/-- `isBlackjack` of blackcat.logic.ts. -/
def isBlackjack (hand : List Card) : Bool :=
  hand.length == 2 && (calculateHandValue hand).value == 21

/-- Number of 10-reductions the adjustment loop performs when it has
an unlimited supply of aces: the least `k` with `v - 10k ≤ 21`. -/
def reductionsNeeded (v : ℕ) : ℕ := (v - 12) / 10

end Parlor

namespace Parlor

/- ===================================================================
   Blackjack session — BlackcatCommand in
   src/commands/games/connect4tress.command.ts (lines 703-1134)
   =================================================================== -/

/-- `determineWinner` of blackcat.logic.ts: resolution precedence for
a finished blackjack game. -/
inductive BResult
| win
| lose
| push
| blackjack
| player_bust
| dealer_bust
deriving DecidableEq, Repr

/-- Session status of a `BlackcatGameState`. -/
inductive BStatus
| player_turn
| dealer_turn
| finished
deriving DecidableEq, Repr

/-- `determineWinner(playerValue, dealerValue, playerBusted,
dealerBusted, playerBlackjack, dealerBlackjack)` of
blackcat.logic.ts. -/
def determineWinner (playerValue dealerValue : ℕ)
    (playerBusted dealerBusted playerBlackjack dealerBlackjack : Bool) : BResult :=
  if playerBlackjack && dealerBlackjack then .push
  else if playerBlackjack then .blackjack
  else if dealerBlackjack then .lose
  else if playerBusted then .lose
  else if dealerBusted then .win
  else if playerValue > dealerValue then .win
  else if dealerValue > playerValue then .lose
  else .push

/-- The game-relevant fields of `BlackcatGameState` (identifiers,
interaction handles and collectors are external rendering state and
are omitted).  The deck is dealt from the head of the list, matching
`deck.pop()` taking from the end of the TypeScript array. -/
structure BlackcatState where
  playerHand : List Card
  dealerHand : List Card
  playerValue : HandValue
  dealerValue : HandValue
  deck : List Card
  wager : ℤ
  status : BStatus
  result : Option BResult
deriving DecidableEq, Repr

/-- The player's row of `UserGuildStats` that the settlement
transaction reads and writes: chip balance and games-played
counter. -/
structure Ledger where
  chips : ℤ
  gamesPlayed : ℤ
deriving DecidableEq, Repr

/-- The `switch (gameResult)` of `BlackcatCommand.endGame` computing
`balanceChange`: win pays the wager, blackjack pays `wager * 3n / 2n`,
lose and player bust forfeit the wager, push and dealer bust change
nothing. -/
def balanceChangeFor (result : BResult) (wager : ℤ) : ℤ :=
  match result with
  | .win => wager
  | .blackjack => wager * 3 / 2
  | .lose => -wager
  | .player_bust => -wager
  | .push => 0
  | .dealer_bust => 0

/-- `BlackcatCommand.endGame(gameState, services, forcedResult)`.
Returns early when the session is already finished; otherwise marks
it finished, determines the result (the forced one if given, else
`determineWinner`), and runs the settlement transaction on the
player's ledger row: when a negative change would drive the balance
below zero the transaction returns early without writing (chips and
games-played stay as stored), otherwise it writes the new balance and
increments `gamesPlayed` exactly once. -/
def blackcatEndGame (s : BlackcatState) (forced : Option BResult) (L : Ledger) :
    BlackcatState × Ledger :=
  if s.status = .finished then (s, L)
  else
    let finalDealerValue := calculateHandValue s.dealerHand
    let playerBlackjack := isBlackjack s.playerHand
    let dealerBlackjack := isBlackjack s.dealerHand
    let gameResult := forced.getD (determineWinner s.playerValue.value finalDealerValue.value
      (decide (s.playerValue.value > 21)) (decide (finalDealerValue.value > 21))
      playerBlackjack dealerBlackjack)
    let bc := balanceChangeFor gameResult s.wager
    let newBalance := L.chips + bc
    let newLedger : Ledger :=
      if bc < 0 ∧ newBalance < 0 then L
      else { chips := newBalance, gamesPlayed := L.gamesPlayed + 1 }
    ({ s with status := .finished, result := some gameResult }, newLedger)

/-- The `while (dealerValue.value < 17)` loop of
`BlackcatCommand.dealerTurn`: the dealer draws from the top of the
deck while below 17, breaking out if the deck empties.  Returns the
remaining deck and the dealer's final hand. -/
def dealerDraw (deck hand : List Card) : List Card × List Card :=
  if (calculateHandValue hand).value < 17 then
    match deck with
    | [] => ([], hand)
    | c :: rest => dealerDraw rest (hand ++ [c])
  else (deck, hand)

/-- `BlackcatCommand.dealerTurn`: reveal the hole card (recompute the
dealer value), draw to 17, then end the game — with a forced
`dealer_bust` result when the dealer's final value exceeds 21,
otherwise by comparison via `determineWinner`. -/
def dealerTurn (s : BlackcatState) (L : Ledger) : BlackcatState × Ledger :=
  let s1 := { s with status := BStatus.dealer_turn,
                     dealerValue := calculateHandValue s.dealerHand }
  let p := dealerDraw s1.deck s1.dealerHand
  let s2 := { s1 with deck := p.1, dealerHand := p.2,
                      dealerValue := calculateHandValue p.2 }
  if s2.dealerValue.value > 21 then blackcatEndGame s2 (some .dealer_bust) L
  else blackcatEndGame s2 none L

/-- Concrete blackjack position used to evaluate the dealer-bust
settlement: the player stands on 18 (ten + eight), the dealer shows
ten + six (16, must hit) and the top of the deck is a king, so the
dealer draws to 26 and busts. -/
def c1State : BlackcatState :=
  { playerHand := [⟨.hearts, .ten⟩, ⟨.spades, .eight⟩]
    dealerHand := [⟨.diamonds, .ten⟩, ⟨.clubs, .six⟩]
    playerValue := calculateHandValue [⟨.hearts, .ten⟩, ⟨.spades, .eight⟩]
    dealerValue := calculateHandValue [⟨.diamonds, .ten⟩, ⟨.clubs, .six⟩]
    deck := [⟨.spades, .king⟩]
    wager := 100
    status := .player_turn
    result := none }

/-- Ledger for the dealer-bust evaluation: 1000 chips, 5 games
played. -/
def c1Ledger : Ledger := { chips := 1000, gamesPlayed := 5 }

/-- A finished blackjack session, used to instantiate the
late-duplicate-termination theorem. -/
def c10FinishedState : BlackcatState :=
  { c1State with status := .finished, result := some .win }

end Parlor

namespace Parlor.Economy

/- ===================================================================
   Economy ledger — src/services/economy.service.ts
   =================================================================== -/

/-- Outcome of `EconomyService.updateBalance`: either the
`InsufficientFundsError` signal thrown out of the transaction (and
re-thrown by the catch clause), or the returned new balance. -/
inductive UpdateOutcome
| insufficientFunds
| success (newBalance : ℤ)
deriving DecidableEq, Repr

/-- `EconomyService.updateBalance(userId, guildId, amountChange)`,
projected onto the chips column of the player's `UserGuildStats` row
(the upsert guarantees the row exists; caching and retry wrappers
only repeat the same transaction).  Returns the stored balance after
the call together with the outcome: a zero delta skips the
transaction and returns the current balance; otherwise the
transaction computes `newBalance = chips + amountChange`, throws
`InsufficientFundsError` — aborting without writing — when the delta
is negative and `newBalance` is below zero, and otherwise writes and
returns `newBalance`. -/
def updateBalance (chips amountChange : ℤ) : ℤ × UpdateOutcome :=
  if amountChange = 0 then (chips, .success chips)
  else if amountChange < 0 ∧ chips + amountChange < 0 then (chips, .insufficientFunds)
  else (chips + amountChange, .success (chips + amountChange))

end Parlor.Economy

namespace Parlor.BigBlast

/- ===================================================================
   Elimination game — src/commands/games/bigblast.command.ts
   =================================================================== -/

/-- The switch-pool part of `BigBlastGameState`: the number of live
switches and the detonator index (both TypeScript numbers, so
integers here). -/
structure BlastState where
  availableSwitches : ℤ
  detonatorIndex : ℤ
deriving DecidableEq, Repr

/-- State update of `BigBlastCommand.handlePlayerChoice` for a safe
choice: `availableSwitches--`, and the detonator index decrements
when it lies after the chosen switch. -/
def safePick (s : BlastState) (chosen : ℤ) : BlastState :=
  { availableSwitches := s.availableSwitches - 1
    detonatorIndex :=
      if s.detonatorIndex > chosen then s.detonatorIndex - 1 else s.detonatorIndex }

/-- Possible outcomes of `BigBlastCommand.handlePlayerChoice`:
out-of-range index (logged and ignored), detonator hit (elimination
path) or a safe pick with its state update. -/
inductive ChoiceOutcome
| invalid
| boom
| safe (s : BlastState)
deriving DecidableEq, Repr

/-- `BigBlastCommand.handlePlayerChoice(gameState, services, player,
chosenIndex)` restricted to the switch-pool state: rejects an index
outside `[0, availableSwitches)`, hits the detonator when the index
equals `detonatorIndex`, and otherwise applies the safe-pick
update. -/
def handlePlayerChoice (s : BlastState) (chosen : ℤ) : ChoiceOutcome :=
  if chosen < 0 ∨ chosen ≥ s.availableSwitches then .invalid
  else if chosen = s.detonatorIndex then .boom
  else .safe (safePick s chosen)

/-- Switch count `BigBlastCommand.handleElimination` assigns for the
next round from the remaining-player count: 3 players give 4
switches, 2 players give 3, and the defensive default is also 3. -/
def switchesAfterElimination (remaining : ℤ) : ℤ :=
  if remaining = 3 then 4 else 3

/-- Switch-pool states reachable in a running game.  The game starts
with 5 switches and a detonator drawn by
`Math.floor(Math.random() * 5)`, so in `[0, 5)`.  A safe pick needs a
chosen index in range and distinct from the detonator
(`handlePlayerChoice`).  An elimination that leaves 2 or 3 players
(the game continues) recomputes the switches by the fixed mapping and
redraws the detonator uniformly below the new switch count
(`handleElimination`). -/
inductive Reachable : BlastState → Prop
| init (d : ℤ) (hd : 0 ≤ d ∧ d < 5) : Reachable ⟨5, d⟩
| safe (s : BlastState) (chosen : ℤ) (hr : Reachable s)
    (h0 : 0 ≤ chosen) (h1 : chosen < s.availableSwitches)
    (hne : chosen ≠ s.detonatorIndex) : Reachable (safePick s chosen)
| elim (s : BlastState) (remaining d : ℤ) (hr : Reachable s)
    (hrem : remaining = 2 ∨ remaining = 3)
    (hd : 0 ≤ d ∧ d < switchesAfterElimination remaining) :
    Reachable ⟨switchesAfterElimination remaining, d⟩

end Parlor.BigBlast

namespace Parlor.CatHeist

/- ===================================================================
   Poker duel — src/commands/games/catheist.command.ts
   =================================================================== -/

/-- Session status of a `CatHeistGameState`. -/
inductive CStatus
| confirm_start
| round_start
| round_reveal
| finished
deriving DecidableEq, Repr

/-- Overall match result of a `CatHeistGameState`. -/
inductive CResult
| win
| lose
| tie
deriving DecidableEq, Repr

/-- The game-relevant fields of `CatHeistGameState` (identifiers and
interaction handles omitted).  `currentRound` is a TypeScript number,
kept as an integer. -/
structure CatHeistState where
  playerHand : List Card
  cpuHand : List Card
  playerScore : ℤ
  cpuScore : ℤ
  currentRound : ℤ
  wager : ℤ
  potentialLoss : ℤ
  status : CStatus
  result : Option CResult
deriving DecidableEq, Repr

/-- The confirm-collector balance re-check of
`CatHeistCommand.execute`: on confirmation the balance is re-read; if
it no longer covers the wager the heist is aborted, otherwise the
potential loss is recomputed as `currentBalance / 4n` (BigInt
division, truncating). -/
def confirmHeist (balanceAtConfirm wager : ℤ) : Option ℤ :=
  if balanceAtConfirm < wager then none else some (balanceAtConfirm / 4)

/-- The fresh-game branch of `CatHeistCommand.startRound`: scores 0-0,
round 1, status `round_start`. -/
def initialState (wager potentialLoss : ℤ) (ph ch : List Card) : CatHeistState :=
  { playerHand := ph
    cpuHand := ch
    playerScore := 0
    cpuScore := 0
    currentRound := 1
    wager := wager
    potentialLoss := potentialLoss
    status := .round_start
    result := none }

/-- The continuing branch of `CatHeistCommand.startRound`: keep the
existing state but deal fresh hands, advance `currentRound` by one
and return to `round_start`. -/
def startRoundExisting (s : CatHeistState) (ph ch : List Card) : CatHeistState :=
  { s with playerHand := ph, cpuHand := ch,
           currentRound := s.currentRound + 1,
           status := CStatus.round_start }

/-- What `CatHeistCommand.handleRoundReveal` does next: carry on to
the next round, end the match, or re-deal the same round after a
tie. -/
inductive RevealNext
| continueGame (s : CatHeistState)
| matchOver (s : CatHeistState) (playerWon : Bool)
| redeal (s : CatHeistState)
deriving DecidableEq, Repr

/-- `CatHeistCommand.handleRoundReveal`, parameterised by the poker
evaluation outcome `roundWinner` (1 = player, 2 = CPU, 0 = tie, the
contract of `evaluatePokerHands`) and by the fresh hands the tie
branch deals.  The tie branch calls `startRound` on the state with
`currentRound` decremented, so that its increment restores the same
round number. -/
def handleRoundReveal (s : CatHeistState) (roundWinner : ℕ)
    (freshP freshC : List Card) : RevealNext :=
  let s1 := { s with status := CStatus.round_reveal }
  if roundWinner = 1 then
    let s2 := { s1 with playerScore := s1.playerScore + 1 }
    if s2.playerScore ≥ 2 ∨ s2.cpuScore ≥ 2 then
      .matchOver s2 (decide (s2.playerScore > s2.cpuScore))
    else .continueGame s2
  else if roundWinner = 2 then
    let s2 := { s1 with cpuScore := s1.cpuScore + 1 }
    if s2.playerScore ≥ 2 ∨ s2.cpuScore ≥ 2 then
      .matchOver s2 (decide (s2.playerScore > s2.cpuScore))
    else .continueGame s2
  else
    .redeal (startRoundExisting { s1 with currentRound := s1.currentRound - 1 } freshP freshC)

/-- `CatHeistCommand.endGame(gameState, services, result)`: a no-op on
an already-finished session; otherwise marks the session finished,
computes the balance change (win pays twice the wager, loss deducts
the pre-computed potential loss, tie changes nothing) and applies it
through `EconomyService.updateBalance`.  Returns the final session
state, the stored chip balance after settlement, and the balance
change that was requested of the ledger. -/
def endGame (s : CatHeistState) (result : CResult) (chips : ℤ) :
    CatHeistState × ℤ × ℤ :=
  if s.status = .finished then (s, chips, 0)
  else
    let bc : ℤ := match result with
      | .win => s.wager * 2
      | .lose => -s.potentialLoss
      | .tie => 0
    let s1 := { s with status := CStatus.finished, result := some result }
    let applied := if bc = 0 then chips else (Economy.updateBalance chips bc).1
    (s1, applied, bc)

end Parlor.CatHeist

namespace Parlor.Connect4

/- ===================================================================
   Connect-four board — src/utils/connect4tress.logic.ts
   and CPU policy — src/utils/cpu.logic.ts
   =================================================================== -/

/-- A board is a list of rows of cells (`number[][]`), row 0 on top;
a cell holds 0 (empty), 1 or 2. -/
abbrev Board := List (List ℕ)

/-- `ROWS` of connect4tress.logic.ts. -/
def ROWS : ℕ := 6

/-- `COLS` of connect4tress.logic.ts. -/
def COLS : ℕ := 7

/-- Cell access `board[r][c]`, defaulting to empty outside the grid
(the source only indexes in range). -/
def cellAt (b : Board) (r c : ℕ) : ℕ := (b.getD r []).getD c 0

/-- `createBoard()`: 6 rows of 7 empty cells. -/
def createBoard : Board := List.replicate ROWS (List.replicate COLS 0)

/-- `isValidMove(board, col)`: the column is in range and its top cell
is empty (the `col >= 0` conjunct is vacuous for a natural-number
column). -/
def isValidMove (b : Board) (c : ℕ) : Bool :=
  decide (c < COLS) && (cellAt b 0 c == 0)

/-- `findLowestEmptyRow(board, col)`: scan rows from the bottom (index
`ROWS - 1`) upward for the first empty cell in the column. -/
def findLowestEmptyRow (b : Board) (c : ℕ) : Option ℕ :=
  (List.range ROWS).reverse.find? (fun r => cellAt b r c == 0)

/-- Write `v` into cell `(r, c)` (the in-place assignment
`board[r][col] = playerNumber`). -/
def setCell (b : Board) (r c v : ℕ) : Board :=
  b.set r ((b.getD r []).set c v)

/-- `placeChip(board, col, playerNumber)`: drop a chip into the lowest
empty cell of the column; the board is unchanged when the move is
invalid (the source returns `false` and leaves the board alone). -/
def placeChip (b : Board) (c p : ℕ) : Board :=
  if isValidMove b c then
    match findLowestEmptyRow b c with
    | some r => setCell b r c p
    | none => b
  else b

/-- `checkWin(board, playerNumber)`: scan for four contiguous cells of
the player horizontally, vertically and on both diagonals, with the
same index ranges as the four loops of the source. -/
def checkWin (b : Board) (p : ℕ) : Bool :=
  ((List.range ROWS).any (fun r => (List.range (COLS - 3)).any (fun c =>
      (cellAt b r c == p) && (cellAt b r (c + 1) == p) &&
      (cellAt b r (c + 2) == p) && (cellAt b r (c + 3) == p)))) ||
  ((List.range (ROWS - 3)).any (fun r => (List.range COLS).any (fun c =>
      (cellAt b r c == p) && (cellAt b (r + 1) c == p) &&
      (cellAt b (r + 2) c == p) && (cellAt b (r + 3) c == p)))) ||
  ((List.range (ROWS - 3)).any (fun r => (List.range (COLS - 3)).any (fun c =>
      (cellAt b r c == p) && (cellAt b (r + 1) (c + 1) == p) &&
      (cellAt b (r + 2) (c + 2) == p) && (cellAt b (r + 3) (c + 3) == p)))) ||
  ((List.range ROWS).drop 3).any (fun r => (List.range (COLS - 3)).any (fun c =>
      (cellAt b r c == p) && (cellAt b (r - 1) (c + 1) == p) &&
      (cellAt b (r - 2) (c + 2) == p) && (cellAt b (r - 3) (c + 3) == p)))

/-- A row is fully occupied: `row.every(cell => cell !== EMPTY)`. -/
def rowFull (row : List ℕ) : Bool := row.all (fun x => x != 0)

/-- `applyGravity(board, clearedRowIndex)`: every row from index 1 up
to the cleared row moves down by one (each row receives the contents
of the row above it, reading the original values), and the top row
becomes empty. -/
def applyGravity (b : Board) (r : ℕ) : Board :=
  List.replicate COLS 0 :: (b.take r ++ b.drop (r + 1))

/-- The scan of the `handle4tress` loop: the source walks `r` from
`ROWS - 1` down to 0 and restarts from the bottom after every clear,
so each iteration clears the bottom-most fully-occupied row. -/
def findFullRow (b : Board) : Option ℕ :=
  (List.range ROWS).reverse.find? (fun r => rowFull (b.getD r []))

/-- Number of occupied cells on the board; each clear removes a full
row of 7, so this bounds the number of loop iterations of
`handle4tress`. -/
def countFilled (b : Board) : ℕ :=
  (b.map (fun row => (row.filter (fun x => x != 0)).length)).sum

/-- The clear-and-restart loop of `handle4tress`, with an iteration
budget (the budget `countFilled b + 1` supplied by `handle4tress` is
never exhausted on a 6×7 board, proved below). -/
def handle4tressAux : ℕ → Board → Board
| 0, b => b
| fuel + 1, b =>
  match findFullRow b with
  | none => b
  | some r => handle4tressAux fuel (applyGravity b r)

/-- `handle4tress(board)`: clear fully-occupied rows bottom-first,
re-applying gravity and restarting the scan after each clear, until
none remains; additionally report whether any row was cleared (true
exactly when the initial scan finds a full row, since a found row is
always cleared). -/
def handle4tress (b : Board) : Board × Bool :=
  (handle4tressAux (countFilled b + 1) b, (findFullRow b).isSome)

/-- A 6×7 board: 6 rows, each of 7 cells. -/
def WellFormed (b : Board) : Prop :=
  b.length = ROWS ∧ ∀ row ∈ b, row.length = COLS

/-- The winning-or-blocking probe of `getCpuMove`: the column admits a
valid move and placing `p` there makes `p` win immediately (the
source probes on a copy of the board). -/
def winningCol (b : Board) (p : ℕ) (c : ℕ) : Bool :=
  isValidMove b c && checkWin (placeChip b c p) p

/-- `getCpuMove(board, cpuPlayerNumber, humanPlayerNumber)` of
cpu.logic.ts.  Priority 1: first column whose placement wins for the
CPU.  Priority 2: first column whose placement would win for the
human (block).  Priority 3: a random valid column — the random draw
`Math.floor(Math.random() * validMoves.length)` is modelled by the
`randIdx` parameter reduced modulo the number of valid moves.
Returns −1 when no column is valid. -/
def getCpuMove (b : Board) (cpu human : ℕ) (randIdx : ℕ) : ℤ :=
  match (List.range COLS).find? (winningCol b cpu) with
  | some c => (c : ℤ)
  | none =>
    match (List.range COLS).find? (winningCol b human) with
    | some c => (c : ℤ)
    | none =>
      let validMoves := (List.range COLS).filter (fun c => isValidMove b c)
      if validMoves.isEmpty then -1
      else ((validMoves.getD (randIdx % validMoves.length) 0 : ℕ) : ℤ)

/-- Board with the bottom two rows simultaneously full (players 1 and
2) and a single marker chip on row 3, used to exhibit a two-row chain
clear. -/
def chainBoard : Board :=
  [List.replicate 7 0, List.replicate 7 0, List.replicate 7 0,
   [1, 0, 0, 0, 0, 0, 0], List.replicate 7 1, List.replicate 7 2]

/-- Board where the CPU (player 1) has three chips stacked in column
0 and can win by playing column 0. -/
def cpuWinBoard : Board :=
  [List.replicate 7 0, List.replicate 7 0,
   [0, 0, 0, 0, 0, 0, 0],
   [1, 0, 0, 0, 0, 0, 0],
   [1, 2, 0, 0, 0, 0, 0],
   [1, 2, 2, 0, 0, 0, 0]]

/-- Board where the CPU (player 1) has no immediate win but the human
(player 2) threatens to win in column 0, so the CPU must block. -/
def blockBoard : Board :=
  [List.replicate 7 0, List.replicate 7 0,
   [0, 0, 0, 0, 0, 0, 0],
   [2, 0, 0, 0, 0, 0, 0],
   [2, 1, 0, 0, 0, 0, 0],
   [2, 1, 1, 0, 0, 0, 0]]

/-- A completely full board (only validity of moves matters for the
sentinel case, and every column is topped by a chip). -/
def fullBoard : Board :=
  List.replicate 6 [1, 2, 1, 2, 1, 2, 1]

end Parlor.Connect4

namespace Parlor

open BigBlast CatHeist Connect4

/- ===================================================================
   Theorems
   =================================================================== -/

/-- Closed form of the ace-adjustment loop: with `a` aces available it
performs `min a (reductionsNeeded v)` reductions of 10. -/
theorem adjustAces_eq (a v : ℕ) :
    adjustAces v a =
      (v - 10 * min a (reductionsNeeded v), a - min a (reductionsNeeded v)) := by
  induction a generalizing v with
  | zero => simp [adjustAces]
  | succ n ih =>
    rw [adjustAces]
    split_ifs with h
    · rw [ih (v - 10)]
      have e : v - 10 - 12 = v - 22 := by omega
      have e2 : v - 12 = (v - 22) + 10 := by omega
      have h1 : reductionsNeeded (v - 10) + 1 = reductionsNeeded v := by
        unfold reductionsNeeded
        rw [e, e2, Nat.add_div_right _ (by norm_num)]
      simp only [Prod.mk.injEq]
      constructor <;> omega
    · have h0 : reductionsNeeded v = 0 := by
        unfold reductionsNeeded
        exact Nat.div_eq_of_lt (by omega)
      simp [h0]

/-- Claim C7: for every hand, `calculateHandValue` returns the sum of
the card values reduced by 10 once per ace for as long as the total
exceeds 21 and an ace counted at 11 remains (`reductionsNeeded` being
the number of reductions required, capped by the ace count), and
`isSoft` holds exactly when the final total is at most 21 and some
ace is still counted at 11; in particular an ace with a king
evaluates to 21 soft, and ace, ace, nine evaluates to 21 soft. -/
theorem calculateHandValue_spec :
    (∀ hand : List Card,
      (calculateHandValue hand).value
          = sumValues hand
              - 10 * min (countAces hand) (reductionsNeeded (sumValues hand)) ∧
      ((calculateHandValue hand).isSoft = true ↔
        (calculateHandValue hand).value ≤ 21 ∧
        min (countAces hand) (reductionsNeeded (sumValues hand)) < countAces hand)) ∧
    calculateHandValue [⟨.hearts, .ace⟩, ⟨.spades, .king⟩] = ⟨21, true⟩ ∧
    calculateHandValue [⟨.hearts, .ace⟩, ⟨.spades, .ace⟩, ⟨.clubs, .nine⟩]
      = ⟨21, true⟩ := by
  refine ⟨fun hand => ?_, by decide, by decide⟩
  have h := adjustAces_eq (countAces hand) (sumValues hand)
  constructor
  · simp [calculateHandValue, h]
  · simp only [calculateHandValue, h, Bool.and_eq_true, decide_eq_true_eq]
    omega

/-- Claim C9: `EconomyService.updateBalance` raises the
insufficient-funds signal exactly when the delta is negative and
would drive the balance below zero, leaving the stored balance
untouched in that case, and otherwise returns and stores the balance
increased by the delta. -/
theorem updateBalance_spec (chips delta : ℤ) :
    ((Economy.updateBalance chips delta).2 = .insufficientFunds ↔
        delta < 0 ∧ chips + delta < 0) ∧
    (delta < 0 ∧ chips + delta < 0 →
        (Economy.updateBalance chips delta).1 = chips) ∧
    (¬(delta < 0 ∧ chips + delta < 0) →
        (Economy.updateBalance chips delta).2
            = .success (chips + delta) ∧
        (Economy.updateBalance chips delta).1 = chips + delta) := by
  by_cases h0 : delta = 0
  · subst h0
    refine ⟨by simp [Economy.updateBalance], fun hc => absurd hc.1 (lt_irrefl 0), fun _ => ?_⟩
    constructor <;> simp [Economy.updateBalance]
  · by_cases h1 : delta < 0 ∧ chips + delta < 0
    · refine ⟨by simp [Economy.updateBalance, h0, h1], fun _ => ?_, fun hc => absurd h1 hc⟩
      simp [Economy.updateBalance, h0, h1]
    · refine ⟨by simp [Economy.updateBalance, h0, h1], fun hc => absurd hc h1, fun _ => ?_⟩
      constructor <;> simp [Economy.updateBalance, h0, h1]

/-- Witness for C9: deducting 100 from a balance of 50 signals
insufficient funds and leaves the balance stored as 50; adding 25 to
a balance of 100 succeeds with 125. -/
theorem updateBalance_spec_witness :
    (Economy.updateBalance 50 (-100)).1 = 50 ∧
    (Economy.updateBalance 100 25).2 = .success (100 + 25) := by
  have h1 := (updateBalance_spec 50 (-100)).2.1 (by norm_num)
  have h2 := (updateBalance_spec 100 25).2.2 (by norm_num)
  exact ⟨h1, h2.1⟩

/-- Claim C5: confirming the heist fixes the potential loss as the
confirmation-time balance divided by 4 (truncating integer division);
winning the match changes the player's balance by exactly twice the
wager, and losing requests a deduction of exactly the pre-computed
potential loss — a quantity independent of the wager — which is the
applied change whenever it does not overdraw the balance. -/
theorem catheist_settlement_spec (balance wager chips : ℤ) (fp fc : List Card)
    (hw : 0 < wager) (hb : wager ≤ balance) :
    confirmHeist balance wager = some (balance / 4) ∧
    (endGame (initialState wager (balance / 4) fp fc) .win chips).2.1
        = chips + 2 * wager ∧
    (endGame (initialState wager (balance / 4) fp fc) .win chips).2.2
        = 2 * wager ∧
    (endGame (initialState wager (balance / 4) fp fc) .lose chips).2.2
        = -(balance / 4) ∧
    (0 ≤ chips - balance / 4 →
      (endGame (initialState wager (balance / 4) fp fc) .lose chips).2.1
          = chips - balance / 4) := by
  refine ⟨?_, ?_, ?_, ?_, ?_⟩
  · unfold confirmHeist
    rw [if_neg (not_lt.mpr hb)]
  · unfold endGame
    rw [if_neg (by simp [initialState])]
    dsimp only [initialState]
    rw [if_neg (by omega)]
    unfold Economy.updateBalance
    rw [if_neg (by omega), if_neg (by omega)]
    dsimp only
    omega
  · unfold endGame
    rw [if_neg (by simp [initialState])]
    dsimp only [initialState]
    omega
  · unfold endGame
    rw [if_neg (by simp [initialState])]
    dsimp only [initialState]
  · intro hc
    unfold endGame
    rw [if_neg (by simp [initialState])]
    dsimp only [initialState]
    by_cases hz : balance / 4 = 0
    · rw [if_pos (by omega)]
      omega
    · rw [if_neg (by omega)]
      unfold Economy.updateBalance
      rw [if_neg (by omega), if_neg (by omega)]
      dsimp only
      omega

/-- Witness for C5: balance 1000, wager 100 — potential loss 250, a
win moves 1000 chips to 1200, a loss moves 1000 chips to 750. -/
theorem catheist_settlement_spec_witness :
    confirmHeist 1000 100 = some 250 ∧
    (endGame (initialState 100 (1000 / 4) [] []) .win 1000).2.1 = 1200 ∧
    (endGame (initialState 100 (1000 / 4) [] []) .lose 1000).2.1 = 750 := by
  have h := catheist_settlement_spec 1000 100 1000 [] [] (by norm_num) (by norm_num)
  refine ⟨?_, ?_, ?_⟩
  · have := h.1
    norm_num at this ⊢
    exact this
  · have := h.2.1
    omega
  · have := h.2.2.2.2 (by norm_num)
    omega

/-- Claim C1 evaluation: after the player stands on 18 against a
dealer showing 16, the dealer draws a king, finishing on 26 (a bust);
`dealerTurn` ends the game with the forced `dealer_bust` result, and
the settlement leaves the chip balance unchanged at 1000 instead of
crediting the 100-chip wager — the `dealer_bust` arm of the
settlement switch pays 0 (and displays a push), although the spec and
the code's own `determineWinner` treat a dealer bust as a 1:1 player
win. -/
theorem blackcat_dealer_bust_settles_zero :
    (dealerTurn c1State c1Ledger).1.status = .finished ∧
    (dealerTurn c1State c1Ledger).1.result = some .dealer_bust ∧
    (calculateHandValue (dealerTurn c1State c1Ledger).1.dealerHand).value = 26 ∧
    c1State.wager = 100 ∧
    (dealerTurn c1State c1Ledger).2.chips = c1Ledger.chips ∧
    balanceChangeFor .dealer_bust c1State.wager = 0 ∧
    determineWinner 18 26 false true false false = .win ∧
    balanceChangeFor .win c1State.wager = c1State.wager := by
  decide

/-- Claim C10: `BlackcatCommand.endGame` on an already-finished
session is a no-op — the session state and the player's ledger row
(chips and games-played counter) are returned unchanged, so a late
duplicate terminal transition never settles the same game twice. -/
theorem blackcat_endGame_finished_noop (s : BlackcatState) (forced : Option BResult)
    (L : Ledger) (h : s.status = .finished) :
    blackcatEndGame s forced L = (s, L) := by
  unfold blackcatEndGame
  rw [if_pos h]

/-- Witness for C10 at a concrete finished session. -/
theorem blackcat_endGame_finished_noop_witness :
    blackcatEndGame c10FinishedState none c1Ledger = (c10FinishedState, c1Ledger) :=
  blackcat_endGame_finished_noop c10FinishedState none c1Ledger rfl

/-- Claim C3: a safe pick (index in range, not the detonator)
decrements `availableSwitches` by one and decrements
`detonatorIndex` by one exactly when the chosen index lies strictly
below it; from 5 switches with the detonator at index 4, a safe pick
at index 2 yields 4 switches with the detonator at index 3. -/
theorem bigblast_safe_pick_spec (s : BlastState) (chosen : ℤ)
    (h0 : 0 ≤ chosen) (h1 : chosen < s.availableSwitches)
    (hne : chosen ≠ s.detonatorIndex) :
    handlePlayerChoice s chosen = .safe (safePick s chosen) ∧
    (safePick s chosen).availableSwitches = s.availableSwitches - 1 ∧
    ((safePick s chosen).detonatorIndex = s.detonatorIndex - 1 ↔
        chosen < s.detonatorIndex) ∧
    handlePlayerChoice ⟨5, 4⟩ 2 = .safe ⟨4, 3⟩ := by
  refine ⟨?_, rfl, ?_, by decide⟩
  · unfold handlePlayerChoice
    rw [if_neg (by omega), if_neg hne]
  · unfold safePick
    split_ifs with hgt <;> dsimp only <;> omega

/-- Witness for C3 at 5 switches, detonator 4, safe pick at index 2. -/
theorem bigblast_safe_pick_spec_witness :
    handlePlayerChoice ⟨5, 4⟩ 2 = .safe (safePick ⟨5, 4⟩ 2) ∧
    (safePick (⟨5, 4⟩ : BlastState) 2).availableSwitches = 4 := by
  have h := bigblast_safe_pick_spec ⟨5, 4⟩ 2 (by decide) (by decide) (by decide)
  exact ⟨h.1, by decide⟩

/-- Claim C2: in every switch-pool state reachable from the start of
an elimination game by safe picks and eliminations, the detonator
index satisfies `0 ≤ detonatorIndex < availableSwitches`. -/
theorem bigblast_detonator_invariant (s : BlastState) (h : Reachable s) :
    0 ≤ s.detonatorIndex ∧ s.detonatorIndex < s.availableSwitches := by
  induction h with
  | init d hd => exact hd
  | safe s chosen hr h0 h1 hne ih =>
    obtain ⟨ia, ib⟩ := ih
    refine ⟨?_, ?_⟩ <;> dsimp only [safePick] <;> split_ifs <;> omega
  | elim s remaining d hr hrem hd ih => exact hd

/-- Witness for C2 at the initial state with 5 switches and the
detonator drawn at index 4. -/
theorem bigblast_detonator_invariant_witness :
    0 ≤ (⟨5, 4⟩ : BlastState).detonatorIndex ∧
    (⟨5, 4⟩ : BlastState).detonatorIndex < (⟨5, 4⟩ : BlastState).availableSwitches :=
  bigblast_detonator_invariant ⟨5, 4⟩ (.init 4 (by decide))

/-- Claim C6: when the revealed poker hands tie, the re-deal returns
to `round_start` with exactly the same round counter and match
scores, only the two hands being replaced by the freshly dealt
ones. -/
theorem catheist_tie_redeal_frame (s : CatHeistState) (fp fc : List Card) :
    handleRoundReveal s 0 fp fc =
      .redeal { s with playerHand := fp, cpuHand := fc,
                       status := CStatus.round_start } ∧
    ({ s with playerHand := fp, cpuHand := fc,
              status := CStatus.round_start } : CatHeistState).currentRound
        = s.currentRound ∧
    ({ s with playerHand := fp, cpuHand := fc,
              status := CStatus.round_start } : CatHeistState).playerScore
        = s.playerScore ∧
    ({ s with playerHand := fp, cpuHand := fc,
              status := CStatus.round_start } : CatHeistState).cpuScore
        = s.cpuScore := by
  refine ⟨?_, rfl, rfl, rfl⟩
  simp only [handleRoundReveal, startRoundExisting]
  norm_num [sub_add_cancel]

/-- Claim C8: `getCpuMove` plays an immediately winning column
whenever one exists, otherwise blocks an immediate win of the
opponent whenever possible, otherwise plays some valid column, and
returns the sentinel −1 exactly when no column admits a valid
move. -/
theorem getCpuMove_spec (b : Board) (cpu human : ℕ) (randIdx : ℕ) :
    ((∃ c ∈ List.range COLS, winningCol b cpu c) →
      ∃ c ∈ List.range COLS,
        getCpuMove b cpu human randIdx = (c : ℤ) ∧ winningCol b cpu c) ∧
    ((∀ c ∈ List.range COLS, ¬ winningCol b cpu c) →
      (∃ c ∈ List.range COLS, winningCol b human c) →
      ∃ c ∈ List.range COLS,
        getCpuMove b cpu human randIdx = (c : ℤ) ∧ winningCol b human c) ∧
    ((∀ c ∈ List.range COLS, ¬ winningCol b cpu c) →
      (∀ c ∈ List.range COLS, ¬ winningCol b human c) →
      (∃ c ∈ List.range COLS, isValidMove b c) →
      ∃ c ∈ List.range COLS,
        getCpuMove b cpu human randIdx = (c : ℤ) ∧ isValidMove b c) ∧
    (getCpuMove b cpu human randIdx = -1 ↔
      ∀ c ∈ List.range COLS, ¬ isValidMove b c) := by
  refine ⟨?_, ?_, ?_, ?_⟩
  · rintro ⟨c, hc, hwin⟩
    cases hf : (List.range COLS).find? (winningCol b cpu) with
    | none => exact absurd hwin (List.find?_eq_none.mp hf c hc)
    | some c0 =>
      refine ⟨c0, List.mem_of_find?_eq_some hf, ?_, List.find?_some hf⟩
      unfold getCpuMove
      rw [hf]
  · rintro hno ⟨c, hc, hwin⟩
    have hf1 : (List.range COLS).find? (winningCol b cpu) = none :=
      List.find?_eq_none.mpr hno
    cases hf : (List.range COLS).find? (winningCol b human) with
    | none => exact absurd hwin (List.find?_eq_none.mp hf c hc)
    | some c0 =>
      refine ⟨c0, List.mem_of_find?_eq_some hf, ?_, List.find?_some hf⟩
      unfold getCpuMove
      rw [hf1, hf]
  · rintro hno1 hno2 ⟨c, hc, hv⟩
    have hf1 : (List.range COLS).find? (winningCol b cpu) = none :=
      List.find?_eq_none.mpr hno1
    have hf2 : (List.range COLS).find? (winningCol b human) = none :=
      List.find?_eq_none.mpr hno2
    have hmem : c ∈ (List.range COLS).filter (fun c => isValidMove b c) :=
      List.mem_filter.mpr ⟨hc, hv⟩
    have hne : (List.range COLS).filter (fun c => isValidMove b c) ≠ [] := by
      intro h
      rw [h] at hmem
      exact absurd hmem (List.not_mem_nil c)
    have hlen : 0 < ((List.range COLS).filter (fun c => isValidMove b c)).length :=
      List.length_pos.mpr hne
    have hidx :
        randIdx % ((List.range COLS).filter (fun c => isValidMove b c)).length
          < ((List.range COLS).filter (fun c => isValidMove b c)).length :=
      Nat.mod_lt _ hlen
    have hget :
        ((List.range COLS).filter (fun c => isValidMove b c)).getD
            (randIdx % ((List.range COLS).filter (fun c => isValidMove b c)).length) 0
          ∈ (List.range COLS).filter (fun c => isValidMove b c) := by
      rw [List.getD_eq_getElem?_getD, List.getElem?_eq_getElem hidx, Option.getD_some]
      exact List.getElem_mem hidx
    refine ⟨_, (List.mem_filter.mp hget).1, ?_, (List.mem_filter.mp hget).2⟩
    unfold getCpuMove
    rw [hf1, hf2]
    dsimp only
    rw [if_neg (by simpa [List.isEmpty_iff] using hne)]
  · constructor
    · intro hres
      cases hf1 : (List.range COLS).find? (winningCol b cpu) with
      | some c0 =>
        exfalso
        unfold getCpuMove at hres
        rw [hf1] at hres
        dsimp only at hres
        omega
      | none =>
        cases hf2 : (List.range COLS).find? (winningCol b human) with
        | some c0 =>
          exfalso
          unfold getCpuMove at hres
          rw [hf1, hf2] at hres
          dsimp only at hres
          omega
        | none =>
          unfold getCpuMove at hres
          rw [hf1, hf2] at hres
          dsimp only at hres
          by_cases he : ((List.range COLS).filter (fun c => isValidMove b c)).isEmpty
          · rw [List.isEmpty_iff] at he
            exact List.filter_eq_nil_iff.mp he
          · rw [if_neg he] at hres
            exact absurd hres (by omega)
    · intro hall
      have hno1 : ∀ c ∈ List.range COLS, ¬ winningCol b cpu c := by
        intro c hc hwin
        rw [winningCol, Bool.and_eq_true] at hwin
        exact hall c hc hwin.1
      have hno2 : ∀ c ∈ List.range COLS, ¬ winningCol b human c := by
        intro c hc hwin
        rw [winningCol, Bool.and_eq_true] at hwin
        exact hall c hc hwin.1
      have hvm : (List.range COLS).filter (fun c => isValidMove b c) = [] :=
        List.filter_eq_nil_iff.mpr hall
      unfold getCpuMove
      rw [List.find?_eq_none.mpr hno1, List.find?_eq_none.mpr hno2]
      dsimp only
      rw [hvm]
      rfl

/-- `List.find?_some` with the predicate given explicitly, so that it
applies to a concrete lambda without higher-order unification. -/
theorem find?_some_applied {α : Type} (p : α → Bool) (l : List α) (a : α)
    (h : l.find? p = some a) : p a = true :=
  List.find?_some h

/-- A found full row index is in range and its row is full. -/
theorem findFullRow_some (b : Board) (r : ℕ) (h : findFullRow b = some r) :
    r < ROWS ∧ rowFull (b.getD r []) = true := by
  unfold findFullRow at h
  have hm := List.mem_of_find?_eq_some h
  rw [List.mem_reverse, List.mem_range] at hm
  exact ⟨hm, find?_some_applied (fun i => rowFull (b.getD i [])) (List.range ROWS).reverse r h⟩

/-- `applyGravity` keeps a 6×7 board 6×7. -/
theorem wellFormed_applyGravity (b : Board) (r : ℕ) (hwf : WellFormed b)
    (hr : r < ROWS) : WellFormed (applyGravity b r) := by
  obtain ⟨hlen, hrows⟩ := hwf
  constructor
  · simp only [applyGravity, List.length_cons, List.length_append, List.length_take,
      List.length_drop, hlen]
    unfold ROWS at hr ⊢
    omega
  · intro row hrow
    simp only [applyGravity, List.mem_cons, List.mem_append] at hrow
    rcases hrow with h | h | h
    · rw [h]
      simp
    · exact hrows row (List.mem_of_mem_take h)
    · exact hrows row (List.mem_of_mem_drop h)

/-- Clearing a full row of a 6×7 board removes exactly `COLS`
occupied cells. -/
theorem countFilled_applyGravity (b : Board) (r : ℕ) (hwf : WellFormed b)
    (hr : r < ROWS) (hfull : rowFull (b.getD r []) = true) :
    countFilled (applyGravity b r) + COLS = countFilled b := by
  obtain ⟨hlen, hrows⟩ := hwf
  have hrb : r < b.length := by rw [hlen]; exact hr
  have hgd : b.getD r [] = b[r] := by
    rw [List.getD_eq_getElem?_getD, List.getElem?_eq_getElem hrb, Option.getD_some]
  have hall : ∀ x ∈ b[r], (fun x => x != 0) x := by
    rw [hgd] at hfull
    exact List.all_eq_true.mp hfull
  have hfr : ((b[r]).filter (fun x => x != 0)).length = COLS := by
    rw [List.filter_eq_self.mpr hall]
    exact hrows b[r] (List.getElem_mem hrb)
  have key : ∀ l : Board,
      countFilled l = (l.map (fun row => (row.filter (fun x => x != 0)).length)).sum :=
    fun l => rfl
  rw [key, key]
  conv_rhs => rw [(List.take_append_drop r b).symm, List.drop_eq_getElem_cons hrb]
  unfold applyGravity
  simp only [List.map_cons, List.map_append, List.sum_cons, List.sum_append]
  have h0 : ((List.replicate COLS 0).filter (fun x => x != 0)).length = 0 := rfl
  rw [h0, hfr]
  omega

/-- With an iteration budget exceeding the number of occupied cells,
the clear loop reaches a board with no fully-occupied row. -/
theorem handle4tressAux_no_full (fuel : ℕ) :
    ∀ b : Board, WellFormed b → countFilled b < fuel →
      findFullRow (handle4tressAux fuel b) = none := by
  induction fuel with
  | zero => intro b _ h; omega
  | succ n ih =>
    intro b hwf hcount
    cases hf : findFullRow b with
    | none =>
      simp only [handle4tressAux]
      rw [hf]
      dsimp only
      exact hf
    | some r =>
      obtain ⟨hr, hfull⟩ := findFullRow_some b r hf
      have hwf2 := wellFormed_applyGravity b r hwf hr
      have hc := countFilled_applyGravity b r hwf hr hfull
      have hlt : countFilled (applyGravity b r) < n := by
        unfold COLS at hc
        omega
      have hstep : handle4tressAux (n + 1) b = handle4tressAux n (applyGravity b r) := by
        simp only [handle4tressAux]
        rw [hf]
      rw [hstep]
      exact ih (applyGravity b r) hwf2 hlt

/-- Claim C4: on a 6×7 board the row-clear mechanic leaves no
fully-occupied row (the loop terminates within its cell-count
budget); each clear makes the top row empty, shifts every row from 1
to the cleared index down from the row above, and leaves the rows
below the cleared index unchanged; and a board whose bottom two rows
are simultaneously full has both cleared — with the marker row
falling two places — in a single invocation. -/
theorem handle4tress_spec :
    (∀ b : Board, WellFormed b → ∀ r, r < ROWS →
      rowFull ((handle4tress b).1.getD r []) = false) ∧
    (∀ (b : Board) (r : ℕ), r < b.length →
      (applyGravity b r).getD 0 [] = List.replicate COLS 0 ∧
      (∀ i, 1 ≤ i → i ≤ r → (applyGravity b r).getD i [] = b.getD (i - 1) []) ∧
      (∀ i, r < i → (applyGravity b r).getD i [] = b.getD i [])) ∧
    handle4tress chainBoard =
      ([List.replicate 7 0, List.replicate 7 0, List.replicate 7 0,
        List.replicate 7 0, List.replicate 7 0, [1, 0, 0, 0, 0, 0, 0]], true) := by
  refine ⟨?_, ?_, by decide⟩
  · intro b hwf r hr
    have hnone := handle4tressAux_no_full (countFilled b + 1) b hwf (by omega)
    have hres := List.find?_eq_none.mp hnone r
      (by rw [List.mem_reverse]; exact List.mem_range.mpr hr)
    simp only [handle4tress]
    simpa using hres
  · intro b r hrb
    refine ⟨rfl, ?_, ?_⟩
    · intro i h1 h2
      obtain ⟨j, rfl⟩ : ∃ j, i = j + 1 := ⟨i - 1, by omega⟩
      unfold applyGravity
      rw [List.getD_eq_getElem?_getD, List.getElem?_cons_succ,
        List.getElem?_append_left (by rw [List.length_take]; omega),
        List.getElem?_take_of_lt (by omega), ← List.getD_eq_getElem?_getD]
      congr 1
    · intro i hi
      obtain ⟨j, rfl⟩ : ∃ j, i = j + 1 := ⟨i - 1, by omega⟩
      unfold applyGravity
      rw [List.getD_eq_getElem?_getD, List.getElem?_cons_succ,
        List.getElem?_append_right (by rw [List.length_take]; omega),
        List.getElem?_drop, ← List.getD_eq_getElem?_getD]
      congr 1
      rw [List.length_take]
      omega

/-- Witness for C4: the chain board after clearing has no full bottom
row, and gravity applied at the bottom row moves row 1 into row 2. -/
theorem handle4tress_spec_witness :
    rowFull ((handle4tress chainBoard).1.getD 5 []) = false ∧
    (applyGravity chainBoard 5).getD 2 [] = chainBoard.getD 1 [] := by
  have h := handle4tress_spec
  exact ⟨h.1 chainBoard (by constructor <;> decide) 5 (by decide),
    (h.2.1 chainBoard 5 (by decide)).2.1 2 (by norm_num) (by norm_num)⟩

/-- Witness for C8 on four concrete boards: the CPU takes its win in
column 0, blocks the human threat in column 0, plays some valid
column on the empty board, and returns −1 on the full board. -/
theorem getCpuMove_spec_witness :
    (∃ c ∈ List.range COLS, getCpuMove cpuWinBoard 1 2 0 = (c : ℤ) ∧ winningCol cpuWinBoard 1 c) ∧
    (∃ c ∈ List.range COLS, getCpuMove blockBoard 1 2 0 = (c : ℤ) ∧ winningCol blockBoard 2 c) ∧
    (∃ c ∈ List.range COLS, getCpuMove createBoard 1 2 3 = (c : ℤ) ∧ isValidMove createBoard c) ∧
    getCpuMove fullBoard 1 2 0 = -1 := by
  refine ⟨?_, ?_, ?_, ?_⟩
  · exact (getCpuMove_spec cpuWinBoard 1 2 0).1 ⟨0, by decide, by decide⟩
  · exact (getCpuMove_spec blockBoard 1 2 0).2.1 (by decide) ⟨0, by decide, by decide⟩
  · exact (getCpuMove_spec createBoard 1 2 3).2.2.1 (by decide) (by decide) ⟨0, by decide, by decide⟩
  · exact (getCpuMove_spec fullBoard 1 2 0).2.2.2.mpr (by decide)

